import Mathlib

/-
Shallow embedding of the SynapseRead text segmentation and playback core
(src/SynapseReadApp.js: ReadingEnhancerEngine.calculateFixation,
ReadingEnhancerEngine.applyEnhancedFormatting, ProgressTracker.calculateWPM
and the chunk-mode reading interval of EnhancedReader).

JavaScript strings are modelled as List Char, JavaScript numbers carried in
the settings as rationals, array indices and counts as naturals.  Regex
behaviour is modelled by hand-tracing the backtracking of the three
tokenizer alternatives; each modelling decision is documented next to the
definition it concerns.
-/

set_option maxRecDepth 10000

/-- Word-character class of the JavaScript regex class backslash-w:
ASCII letters, ASCII digits and the underscore. -/
def isWordChar (c : Char) : Bool := c.isAlphanum || c = '_'

/-- Whitespace class of the JavaScript regex class backslash-s, restricted to
the common members (space, tab, line feed, carriage return, vertical tab,
form feed, no-break space); the exotic Unicode space code points are omitted,
and no input considered in this development contains them. -/
def isSpaceChar (c : Char) : Bool :=
  c = ' ' || c = '\t' || c = '\n' || c = '\r' ||
    c = Char.ofNat 11 || c = Char.ofNat 12 || c = Char.ofNat 0xa0

/-- Punctuation class of the tokenizer: period, comma, exclamation mark,
question mark, semicolon, colon, em dash, hyphen. -/
def isPunctChar (c : Char) : Bool :=
  c = '.' || c = ',' || c = '!' || c = '?' || c = ';' || c = ':' ||
    c = '—' || c = '-'

/-- JavaScript String.prototype.trim on the whitespace class above. -/
def jsTrim (s : List Char) : List Char :=
  ((s.dropWhile isSpaceChar).reverse.dropWhile isSpaceChar).reverse

/-- Counts the leading run of line-break units (each unit an optional
carriage return followed by a line feed, the greedy reading of the separator
regex piece), returning the unit count and the remaining characters.  The
fuel argument only bounds recursion depth; every recursive call consumes at
least one character, so any fuel at least the input length is exact. -/
def countBreaks : ℕ → List Char → ℕ × List Char
  | 0, s => (0, s)
  | fuel + 1, '\r' :: '\n' :: rest =>
    let r := countBreaks fuel rest
    (r.1 + 1, r.2)
  | fuel + 1, '\n' :: rest =>
    let r := countBreaks fuel rest
    (r.1 + 1, r.2)
  | _ + 1, s => (0, s)

/-- Scanner for the paragraph split of the source (text.split on two or more
consecutive line breaks): cur accumulates the current paragraph in reverse;
at each position a separator is a maximal run of at least two line-break
units; anything else, line-break characters included, is ordinary paragraph
content.  Fuel bounds recursion depth as in countBreaks. -/
def splitGo : ℕ → List Char → List Char → List (List Char)
  | 0, cur, _ => [cur.reverse]
  | _ + 1, cur, [] => [cur.reverse]
  | fuel + 1, cur, c :: rest =>
    if c = '\r' || c = '\n' then
      let r := countBreaks (rest.length + 1) (c :: rest)
      if 2 ≤ r.1 then cur.reverse :: splitGo fuel [] r.2
      else splitGo fuel (c :: cur) rest
    else splitGo fuel (c :: cur) rest

/-- The paragraph split applied to the whole document. -/
def splitParagraphs (text : List Char) : List (List Char) :=
  splitGo (text.length + 1) [] text

/-- The apostrophe character, written by code point to keep the source free
of quote-escape sequences. -/
def apos : Char := Char.ofNat 39

/-- Simulation of the first tokenizer alternative (word boundary, one or
more word characters, an optional apostrophe followed by further word
characters, word boundary, negative lookahead for a literal period) at a
position whose leading word boundary has already been checked by the caller.
Returns the matched token with the remaining characters, or none when every
backtracking attempt of the regex engine fails.  The case analysis mirrors
the engine: only a match end sitting at a run boundary can satisfy the final
word-boundary assertion, and on a failed lookahead the engine retreats first
to the position right after the apostrophe and then to the end of the first
run. -/
def matchWordAt (s : List Char) : Option (List Char × List Char) :=
  let r1 := s.takeWhile isWordChar
  let rest1 := s.dropWhile isWordChar
  if r1.isEmpty then none
  else
    match rest1 with
    | [] => some (r1, [])
    | q :: rest2 =>
      if q = apos then
        let r2 := rest2.takeWhile isWordChar
        let rest3 := rest2.dropWhile isWordChar
        if r2.isEmpty then some (r1, rest1)
        else if rest3.head? = some '.' then some (r1 ++ [q], rest2)
        else some (r1 ++ [q] ++ r2, rest3)
      else if q = '.' then none
      else some (r1, rest1)

/-- Main scan of the tokenizer regex with the global flag: at each position
try the word alternative (its leading boundary needs the previous character),
then the punctuation-run alternative (whose negative lookahead is vacuous
because the run is maximal and the period belongs to the class), then the
whitespace-run alternative; on failure drop one character and continue.
Fuel bounds recursion depth; every step consumes at least one character. -/
def goTok : ℕ → Option Char → List Char → List (List Char)
  | 0, _, _ => []
  | _ + 1, _, [] => []
  | fuel + 1, prev, c :: rest =>
    let boundary := match prev with
      | none => true
      | some p => !isWordChar p
    if isWordChar c && boundary then
      match matchWordAt (c :: rest) with
      | some (tok, rest2) => tok :: goTok fuel tok.getLast? rest2
      | none => goTok fuel (some c) rest
    else if isWordChar c then goTok fuel (some c) rest
    else if isPunctChar c then
      (c :: rest).takeWhile isPunctChar ::
        goTok fuel (((c :: rest).takeWhile isPunctChar).getLast?)
          ((c :: rest).dropWhile isPunctChar)
    else if isSpaceChar c then
      (c :: rest).takeWhile isSpaceChar ::
        goTok fuel (((c :: rest).takeWhile isSpaceChar).getLast?)
          ((c :: rest).dropWhile isSpaceChar)
    else goTok fuel (some c) rest

/-- The token list of one paragraph (match of the tokenizer regex). -/
def jsTokenize (s : List Char) : List (List Char) := goTok s.length none s

/-- Classification test for word tokens, the anchored word regex of the
chunk builder: a run of word characters optionally followed by an apostrophe
and a further nonempty run of word characters (a trailing apostrophe cannot
satisfy the final word-boundary-then-end assertion). -/
def isWordTok (t : List Char) : Bool :=
  let r1 := t.takeWhile isWordChar
  let rest := t.dropWhile isWordChar
  !r1.isEmpty &&
    (rest.isEmpty ||
      (rest.head? = some apos && !rest.tail.isEmpty && rest.tail.all isWordChar))

/-- Classification test for whitespace tokens. -/
def isSpaceTok (t : List Char) : Bool := !t.isEmpty && t.all isSpaceChar

/-- Classification test for punctuation tokens. -/
def isPunctTok (t : List Char) : Bool := !t.isEmpty && t.all isPunctChar

/-- The fixed prefix list of calculateFixation, in source order. -/
def prefixList : List (List Char) :=
  ["un", "re", "pre", "dis", "in", "im", "ir", "il", "anti", "auto", "bio",
   "co", "de", "ex", "fore", "inter", "micro", "mid", "mono", "non", "over",
   "post", "pro", "sub", "super", "trans", "tri", "under"].map String.toList

/-- The fixed suffix list of calculateFixation, in source order. -/
def suffixList : List (List Char) :=
  ["ing", "ed", "ly", "tion", "sion", "able", "ible", "al", "ent", "ence",
   "ive", "ize", "ise", "ment", "ness", "ous", "ful", "less"].map String.toList

/-- Rule 2 of calculateFixation: the first listed prefix that starts the
lowercased word and is shorter than the word clamps the fixation point. -/
def prefixAdjust (lowerWord : List Char) (len : ℕ) (fp : ℤ) : ℤ :=
  match prefixList.find? (fun p => p.isPrefixOf lowerWord && decide (p.length < len)) with
  | some p => min fp (p.length : ℤ)
  | none => fp

/-- Rule 3 of calculateFixation: the first listed suffix that ends the
lowercased word and is shorter than the word clamps the fixation point to
the length minus the suffix length. -/
def suffixAdjust (lowerWord : List Char) (len : ℕ) (fp : ℤ) : ℤ :=
  match suffixList.find? (fun p => p.isSuffixOf lowerWord && decide (p.length < len)) with
  | some p => min fp ((len : ℤ) - (p.length : ℤ))
  | none => fp

/-- Rule 4 of calculateFixation: words of length at most three get point
one; words longer than eight get one added, capped at length minus one. -/
def fixationBalance (len : ℕ) (fp : ℤ) : ℤ :=
  if len ≤ 3 then 1 else if 8 < len then min (fp + 1) ((len : ℤ) - 1) else fp

/-- Body of calculateFixation for words of length at least two: base point
ceiling of length times the level, prefix and suffix clamping, balancing,
then the final clamp into the interval from one to length minus one. -/
def fixationCore (word : List Char) (fixationLevel : ℚ) : ℤ :=
  let len := word.length
  let lowerWord := word.map Char.toLower
  let base : ℤ := ⌈(len : ℚ) * fixationLevel⌉
  min (max 1 (fixationBalance len (suffixAdjust lowerWord len (prefixAdjust lowerWord len base))))
    ((len : ℤ) - 1)

/-- ReadingEnhancerEngine.calculateFixation.  The empty word and the
one-character word return their own length (the falsy-or-short guard of the
source). -/
def calculateFixation (word : List Char) (fixationLevel : ℚ) : ℤ :=
  if word.length ≤ 1 then (word.length : ℤ) else fixationCore word fixationLevel

/-- JavaScript Math.round: floor of the argument plus one half. -/
def jsRound (x : ℚ) : ℤ := ⌊x + 1 / 2⌋

/-- ProgressTracker.calculateWPM. -/
def calculateWPM (wordsRead timeElapsedSeconds : ℚ) : ℤ :=
  if timeElapsedSeconds ≤ 0 then 0
  else jsRound (wordsRead / timeElapsedSeconds * 60)

/-- The settings fields consumed by the segmentation pipeline and the
reading interval. -/
structure Settings where
  fixation : ℚ
  opacity : ℚ
  speed : ℚ
  maxWordsPerChunk : ℕ

/-- The default preset of the accessibility panel. -/
def defaultSettings : Settings := ⟨0.5, 1, 2.5, 10⟩

/-- A chunk item: a word (with its bold prefix, normal suffix and carried
opacity), a whitespace run, or a standalone punctuation run. -/
inductive RItem where
  | word (content bold normal : List Char) (opacity : ℚ)
  | space (content : List Char)
  | punct (content : List Char) (opacity : ℚ)

/-- The raw text of an item (the content field of the source objects). -/
def RItem.content : RItem → List Char
  | .word c _ _ _ => c
  | .space c => c
  | .punct c _ => c

/-- Item type test for words. -/
def isWordItem : RItem → Bool
  | .word _ _ _ _ => true
  | _ => false

/-- Item type test for whitespace runs. -/
def isSpaceItem : RItem → Bool
  | .space _ => true
  | _ => false

/-- A chunk: its items, its reconstructed original text, the
paragraph-break-marker flag, and the index assigned at finalization. -/
structure RChunk where
  words : List RItem
  originalContent : List Char
  isParagraphBreak : Bool
  chunkIndex : ℕ

/-- The number of word-type items of a chunk. -/
def chunkWords (c : RChunk) : ℕ := (c.words.filter isWordItem).length

/-- Backward punctuation merge of the chunk builder: scanning the buffer
from its end, skip space items; append the punctuation text onto the first
word item found, both to its content and to its normal suffix; when a
punctuation item or the buffer start is reached first, push the punctuation
as a standalone item at the end of the buffer instead. -/
def attachPunctuation (items : List RItem) (tok : List Char) (op : ℚ) : List RItem :=
  let rev := items.reverse
  let spaces := rev.takeWhile isSpaceItem
  let rest := rev.dropWhile isSpaceItem
  match rest with
  | RItem.word c b n o :: back =>
    (spaces ++ RItem.word (c ++ tok) b (n ++ tok) o :: back).reverse
  | _ => items ++ [RItem.punct tok op]

/-- Hard chunk terminator test: the token ends in a period, exclamation
mark or question mark. -/
def endsHard (tok : List Char) : Bool :=
  match tok.getLast? with
  | some c => c = '.' || c = '!' || c = '?'
  | none => false

/-- Soft chunk terminator test: the token ends in a comma, semicolon or em
dash. -/
def endsSoft (tok : List Char) : Bool :=
  match tok.getLast? with
  | some c => c = ',' || c = ';' || c = '—'
  | none => false

/-- The mutable accumulators of stage one of the chunk builder: the chunks
already emitted, the item buffer of the open chunk, and the original-text
parts of the open chunk. -/
structure BuildState where
  chunks : List RChunk
  items : List RItem
  parts : List (List Char)

/-- One token step of stage one: words are appended with their fixation
split, whitespace is appended verbatim, punctuation is merged backward and,
when it ends in a hard or soft terminator and the buffer is nonempty, closes
the chunk; a token passing none of the three classification tests is
dropped. -/
def stage1Step (fx op : ℚ) (st : BuildState) (tok : List Char) : BuildState :=
  if isWordTok tok then
    let fp := (calculateFixation tok fx).toNat
    { st with
      items := st.items ++ [RItem.word tok (tok.take fp) (tok.drop fp) op],
      parts := st.parts ++ [tok] }
  else if isSpaceTok tok then
    { st with items := st.items ++ [RItem.space tok], parts := st.parts ++ [tok] }
  else if isPunctTok tok then
    let items2 := attachPunctuation st.items tok op
    let parts2 := st.parts ++ [tok]
    if (endsHard tok || endsSoft tok) && !items2.isEmpty then
      { chunks := st.chunks ++ [⟨items2, parts2.flatten, false, 0⟩],
        items := [], parts := [] }
    else
      { st with items := items2, parts := parts2 }
  else st

/-- Stage one over one paragraph: fold the steps over the token list, then
flush any nonempty remaining buffer as a final chunk. -/
def stage1Para (fx op : ℚ) (p : List Char) : List RChunk :=
  let st := (jsTokenize p).foldl (stage1Step fx op) ⟨[], [], []⟩
  st.chunks ++ (if !st.items.isEmpty then [⟨st.items, st.parts.flatten, false, 0⟩] else [])

/-- The paragraph-break marker sentinel. -/
def paragraphBreakChunk : RChunk := ⟨[], [], true, 0⟩

/-- Stage one over all paragraphs.  The marker condition reproduces the
source comparison verbatim: the raw paragraph must be nonempty after
trimming and must differ from the trimmed text of the last paragraph. -/
def stage1 (fx op : ℚ) (paras : List (List Char)) : List RChunk :=
  (paras.map (fun p =>
    stage1Para fx op p ++
      (if !(jsTrim p).isEmpty && p ≠ jsTrim (paras.getLastD []) then
        [paragraphBreakChunk] else []))).flatten

/-- Index of the last space item of a buffer, the value found by the
backward split-point search of the fallback splitter. -/
def findLastSpace : List RItem → Option ℕ
  | [] => none
  | x :: xs =>
    match findLastSpace xs with
    | some k => some (k + 1)
    | none => if isSpaceItem x then some 0 else none

/-- Fallback splitter loop over the items of one oversized chunk.  The
buffer, parts and count arguments mirror the mutable sub-chunk accumulators
of the source; the first list argument is the remaining item suffix, so an
empty tail plays the role of the last-index test of the source loop.  On a
trigger (count at the limit, or last item) the loop splits after the last
space of the buffer (or at the buffer end when it has no space), emits the
front when its text is nonempty after trimming, keeps the remainder, and at
the last item also emits any nonempty remainder. -/
def splitLoop (maxW : ℕ) : List RItem → List RItem → List (List Char) → ℕ → List RChunk
  | [], _, _, _ => []
  | item :: rest, buf, parts, cnt =>
    let buf2 := buf ++ [item]
    let parts2 := parts ++ [item.content]
    let cnt2 := cnt + (if isWordItem item then 1 else 0)
    if maxW ≤ cnt2 || rest.isEmpty then
      let si := (findLastSpace buf2).getD (buf2.length - 1)
      let pushed := buf2.take (si + 1)
      let pushedText := (parts2.take (si + 1)).flatten
      let emitted :=
        if !pushed.isEmpty && !(jsTrim pushedText).isEmpty then
          [(⟨pushed, pushedText, false, 0⟩ : RChunk)]
        else []
      let rem := buf2.drop (si + 1)
      let remParts := parts2.drop (si + 1)
      emitted ++
        (if rest.isEmpty && !rem.isEmpty then
          [(⟨rem, remParts.flatten, false, 0⟩ : RChunk)] else []) ++
        splitLoop maxW rest rem remParts (rem.filter isWordItem).length
    else splitLoop maxW rest buf2 parts2 cnt2

/-- Stage two: paragraph-break markers pass through; a chunk whose word
count exceeds the limit is re-split by the fallback loop; any other chunk
passes through unchanged. -/
def stage2 (maxW : ℕ) (chunks : List RChunk) : List RChunk :=
  chunks.flatMap (fun c =>
    if c.isParagraphBreak then [c]
    else if maxW < chunkWords c then splitLoop maxW c.words [] [] 0
    else [c])

/-- Finalization: assign sequential zero-based chunk indices. -/
def assignIdx : ℕ → List RChunk → List RChunk
  | _, [] => []
  | i, c :: rest => { c with chunkIndex := i } :: assignIdx (i + 1) rest

/-- The paragraphs kept by the pipeline: the split pieces that are nonempty
after trimming. -/
def keptParagraphs (text : List Char) : List (List Char) :=
  (splitParagraphs text).filter (fun p => !(jsTrim p).isEmpty)

/-- ReadingEnhancerEngine.applyEnhancedFormatting: empty text yields no
chunks; otherwise split into paragraphs, run both chunking stages, and
assign final indices. -/
def applyEnhancedFormatting (text : List Char) (s : Settings) : List RChunk :=
  if text.isEmpty then []
  else
    assignIdx 0 (stage2 s.maxWordsPerChunk
      (stage1 s.fixation s.opacity (keptParagraphs text)))

/-- The payload of a progress event emitted on an accepted tick. -/
structure ProgressEvent where
  wordsRead : ℕ
  wpm : ℤ
  progressPercent : ℚ

/-- One accepted tick of the chunk-mode reading interval: advance the
cursor, stopping (none) when the new cursor reaches the chunk count;
otherwise report the words read over the chunks before the new cursor, the
words-per-minute over the elapsed seconds, and the progress percentage
computed against the full chunk count. -/
def readerTick (chunks : List RChunk) (prev : ℕ) (elapsed : ℚ) :
    Option (ℕ × ProgressEvent) :=
  if chunks.length ≤ prev + 1 then none
  else
    let wordsRead := ((chunks.take (prev + 1)).map chunkWords).sum
    some (prev + 1,
      ⟨wordsRead, calculateWPM (wordsRead : ℚ) elapsed,
        ((prev + 1 : ℕ) : ℚ) / ((chunks.length : ℕ) : ℚ) * 100⟩)

/-- Word-item count of an item list (the filter-and-count idiom of the
source). -/
def wcount (l : List RItem) : ℕ := (l.filter isWordItem).length

/-- The bold-plus-normal reconstruction invariant of a word item; trivially
true of the other item kinds. -/
def wordOk : RItem → Prop
  | RItem.word c b n _ => b ++ n = c
  | _ => True

/-- Concatenation of the tokens of one paragraph that pass one of the three
classification tests of stage one (the characters the chunk builder actually
keeps). -/
def classifiedConcat (p : List Char) : List Char :=
  ((jsTokenize p).filter (fun t => isWordTok t || isSpaceTok t || isPunctTok t)).flatten

/-- The text accumulated by a stage-one state: the original content of the
closed chunks followed by the parts of the open buffer. -/
def stateText (st : BuildState) : List Char :=
  (st.chunks.map RChunk.originalContent).flatten ++ st.parts.flatten

/-- Settings with the chunk-size limit five used by the fallback-splitter
scenarios. -/
def sizeFiveSettings : Settings := ⟨0.5, 1, 2.5, 5⟩

/-- A fifteen-word sentence with no internal punctuation. -/
def fifteenWordText : List Char :=
  "one two three four five six seven eight nine ten alpha beta gamma delta epsilon".toList

/-- A two-paragraph document whose chunk sequence contains a
paragraph-break marker. -/
def c5Chunks : List RChunk := applyEnhancedFormatting ("a\n\nb c".toList) defaultSettings

/-- Two contentless chunks used to exercise one reader tick. -/
def tickDemoChunks : List RChunk := [⟨[], [], false, 0⟩, ⟨[], [], false, 1⟩]

lemma wcount_append (a b : List RItem) : wcount (a ++ b) = wcount a + wcount b := by
  simp [wcount, List.filter_append]

lemma wcount_take_add_drop (n : ℕ) (l : List RItem) :
    wcount (l.take n) + wcount (l.drop n) = wcount l := by
  rw [← wcount_append, List.take_append_drop]

lemma wcount_singleton (i : RItem) : wcount [i] = if isWordItem i then 1 else 0 := by
  simp only [wcount, List.filter_cons, List.filter_nil]
  split <;> rfl

lemma isWordItem_of_space (i : RItem) (h : isSpaceItem i = true) : isWordItem i = false := by
  cases i <;> simp_all [isSpaceItem, isWordItem]

lemma findLastSpace_none_iff (l : List RItem) :
    findLastSpace l = none ↔ l.any isSpaceItem = false := by
  induction l with
  | nil => simp [findLastSpace]
  | cons x xs ih =>
    rw [findLastSpace]
    cases hf : findLastSpace xs with
    | some k =>
      have hxs : xs.any isSpaceItem = true := by
        cases hb : xs.any isSpaceItem with
        | false => exact absurd hf (by simp [ih.mpr hb])
        | true => rfl
      simp [List.any_cons, hxs]
    | none =>
      have hxs : xs.any isSpaceItem = false := ih.mp hf
      split_ifs with hx
      · simp [List.any_cons, hx]
      · simp only [Bool.not_eq_true] at hx
        simp [List.any_cons, hx, hxs]

lemma findLastSpace_some_drop (l : List RItem) :
    ∀ k, findLastSpace l = some k → (l.drop (k + 1)).any isSpaceItem = false := by
  induction l with
  | nil => intro k h; simp [findLastSpace] at h
  | cons x xs ih =>
    intro k h
    rw [findLastSpace] at h
    cases hf : findLastSpace xs with
    | some k0 =>
      rw [hf] at h
      have hk : k = k0 + 1 := by injection h with h2; omega
      subst hk
      simpa using ih k0 hf
    | none =>
      rw [hf] at h
      cases hx : isSpaceItem x with
      | false => rw [if_neg (by simp [hx])] at h; exact absurd h (by simp)
      | true =>
        rw [if_pos hx] at h
        have hk : k = 0 := by injection h with h2; omega
        subst hk
        simpa using (findLastSpace_none_iff xs).mp hf

lemma splitLoop_space_bound (maxW : ℕ) (items : List RItem) :
    ∀ (buf : List RItem) (parts : List (List Char)) (cnt : ℕ),
      cnt = wcount buf → cnt ≤ maxW → (buf.any isSpaceItem = true → cnt < maxW) →
      ∀ c ∈ splitLoop maxW items buf parts cnt,
        c.words.any isSpaceItem = true → chunkWords c ≤ maxW := by
  induction items with
  | nil =>
    intro buf parts cnt _ _ _ c hc
    simp [splitLoop] at hc
  | cons item rest ih =>
    intro buf parts cnt h1 h2 h3 c hc hsp
    simp only [splitLoop] at hc
    by_cases htr :
        (decide (maxW ≤ cnt + (if isWordItem item then 1 else 0)) || rest.isEmpty) = true
    · rw [if_pos htr] at hc
      set buf2 := buf ++ [item] with hbuf2
      set cnt2 := cnt + (if isWordItem item then 1 else 0) with hcnt2
      have hw2 : wcount buf2 = cnt2 := by
        rw [hbuf2, hcnt2, wcount_append, wcount_singleton, h1]
      have hsp2 : buf2.any isSpaceItem = true → cnt2 ≤ maxW := by
        intro hs
        rw [hbuf2, List.any_append] at hs
        rcases Bool.or_eq_true_iff.mp hs with hsb | hsi
        · have hlt := h3 hsb
          have hone : (if isWordItem item then 1 else 0) ≤ 1 := by split <;> omega
          omega
        · have hii : isSpaceItem item = true := by simpa using hsi
          have hwi : isWordItem item = false := isWordItem_of_space item hii
          have h4 : cnt2 = cnt := by rw [hcnt2, hwi]; simp
          omega
      set si := (findLastSpace buf2).getD (buf2.length - 1) with hsi
      have hsplit : (buf2.drop (si + 1)).any isSpaceItem = false ∧
          wcount (buf2.drop (si + 1)) ≤ maxW := by
        cases hf : findLastSpace buf2 with
        | some k =>
          have hk : si = k := by simp [hsi, hf]
          have hbs : buf2.any isSpaceItem = true := by
            cases hb : buf2.any isSpaceItem with
            | false => exact absurd hf (by simp [(findLastSpace_none_iff buf2).mpr hb])
            | true => rfl
          have hc2 := hsp2 hbs
          have hsum := wcount_take_add_drop (si + 1) buf2
          exact ⟨by rw [hk]; exact findLastSpace_some_drop buf2 k hf, by omega⟩
        | none =>
          have hlen : buf2.length ≠ 0 := by rw [hbuf2]; simp
          have hk : si + 1 = buf2.length := by
            rw [hsi, hf, Option.getD_none]
            omega
          rw [hk, List.drop_length]
          exact ⟨rfl, by simp [wcount]⟩
      rcases List.mem_append.mp hc with hc1 | hcr
      · rcases List.mem_append.mp hc1 with hce | hcx
        · split at hce
          · rw [List.mem_singleton] at hce
            subst hce
            have hsb2 : buf2.any isSpaceItem = true := by
              rcases List.any_eq_true.mp hsp with ⟨x, hx, hxs⟩
              exact List.any_eq_true.mpr ⟨x, List.take_subset _ _ hx, hxs⟩
            have hc2 := hsp2 hsb2
            have hsum := wcount_take_add_drop (si + 1) buf2
            show wcount (buf2.take (si + 1)) ≤ maxW
            omega
          · simp at hce
        · split at hcx
          · rw [List.mem_singleton] at hcx
            subst hcx
            exact absurd hsp (by simp [hsplit.1])
          · simp at hcx
      · exact ih _ _ _ rfl hsplit.2 (fun habs => absurd habs (by simp [hsplit.1])) c hcr hsp
    · rw [if_neg htr] at hc
      simp only [Bool.or_eq_true, decide_eq_true_eq, not_or, Bool.not_eq_true] at htr
      have hw2 : wcount (buf ++ [item]) = cnt + (if isWordItem item then 1 else 0) := by
        rw [wcount_append, wcount_singleton, h1]
      exact ih _ _ _ hw2.symm (by omega) (fun _ => by omega) c hc hsp

lemma splitLoop_words_mem (maxW : ℕ) (items : List RItem) :
    ∀ (buf : List RItem) (parts : List (List Char)) (cnt : ℕ) (c : RChunk),
      c ∈ splitLoop maxW items buf parts cnt → ∀ i ∈ c.words, i ∈ buf ∨ i ∈ items := by
  induction items with
  | nil => intro buf parts cnt c hc; simp [splitLoop] at hc
  | cons item rest ih =>
    intro buf parts cnt c hc i hi
    simp only [splitLoop] at hc
    by_cases htr :
        (decide (maxW ≤ cnt + (if isWordItem item then 1 else 0)) || rest.isEmpty) = true
    · rw [if_pos htr] at hc
      rcases List.mem_append.mp hc with hc1 | hcr
      · rcases List.mem_append.mp hc1 with hce | hcx
        · split at hce
          · rw [List.mem_singleton] at hce
            subst hce
            have hm : i ∈ buf ++ [item] := List.take_subset _ _ hi
            rcases List.mem_append.mp hm with h | h
            · exact Or.inl h
            · simp only [List.mem_singleton] at h
              subst h
              exact Or.inr (List.mem_cons_self _ _)
          · simp at hce
        · split at hcx
          · rw [List.mem_singleton] at hcx
            subst hcx
            have hm : i ∈ buf ++ [item] := List.drop_subset _ _ hi
            rcases List.mem_append.mp hm with h | h
            · exact Or.inl h
            · simp only [List.mem_singleton] at h
              subst h
              exact Or.inr (List.mem_cons_self _ _)
          · simp at hcx
      · rcases ih _ _ _ c hcr i hi with h | h
        · have hm : i ∈ buf ++ [item] := List.drop_subset _ _ h
          rcases List.mem_append.mp hm with h2 | h2
          · exact Or.inl h2
          · simp only [List.mem_singleton] at h2
            subst h2
            exact Or.inr (List.mem_cons_self _ _)
        · exact Or.inr (List.mem_cons_of_mem _ h)
    · rw [if_neg htr] at hc
      rcases ih _ _ _ c hc i hi with h | h
      · rcases List.mem_append.mp h with h2 | h2
        · exact Or.inl h2
        · simp only [List.mem_singleton] at h2
          subst h2
          exact Or.inr (List.mem_cons_self _ _)
      · exact Or.inr (List.mem_cons_of_mem _ h)

lemma attachPunctuation_ne_nil (items : List RItem) (tok : List Char) (op : ℚ) :
    attachPunctuation items tok op ≠ [] := by
  unfold attachPunctuation
  cases hrest : items.reverse.dropWhile isSpaceItem with
  | nil => simp only [hrest]; simp
  | cons x back => cases x <;> simp only [hrest] <;> simp

lemma stage1Step_nilInv (fx op : ℚ) (st : BuildState) (tok : List Char)
    (h : st.items = [] → st.parts = []) :
    (stage1Step fx op st tok).items = [] → (stage1Step fx op st tok).parts = [] := by
  simp only [stage1Step]
  split_ifs with h1 h2 h3 h4
  · intro habs; simp at habs
  · intro habs; simp at habs
  · intro _; rfl
  · intro habs; exact absurd habs (attachPunctuation_ne_nil _ _ _)
  · exact h

lemma stage1_foldl_nilInv (fx op : ℚ) (toks : List (List Char)) :
    ∀ st : BuildState, (st.items = [] → st.parts = []) →
      ((toks.foldl (stage1Step fx op) st).items = [] →
        (toks.foldl (stage1Step fx op) st).parts = []) := by
  induction toks with
  | nil => intro st h; exact h
  | cons t ts ih =>
    intro st h
    rw [List.foldl_cons]
    exact ih _ (stage1Step_nilInv fx op st t h)

lemma stage1Step_text (fx op : ℚ) (st : BuildState) (tok : List Char) :
    stateText (stage1Step fx op st tok) =
      stateText st ++
        (if isWordTok tok || isSpaceTok tok || isPunctTok tok then tok else []) := by
  simp only [stage1Step, stateText]
  split_ifs with h1 h2 h3 h4 <;>
    simp_all [List.flatten_append, List.append_assoc]

lemma stage1_foldl_text (fx op : ℚ) (toks : List (List Char)) :
    ∀ st : BuildState,
      stateText (toks.foldl (stage1Step fx op) st) =
        stateText st ++
          (toks.filter (fun t => isWordTok t || isSpaceTok t || isPunctTok t)).flatten := by
  induction toks with
  | nil => intro st; simp
  | cons t ts ih =>
    intro st
    rw [List.foldl_cons, ih, stage1Step_text]
    cases h : (isWordTok t || isSpaceTok t || isPunctTok t) with
    | true => simp [List.filter_cons, h, List.append_assoc]
    | false => simp [List.filter_cons, h]

lemma stage1Para_text (fx op : ℚ) (p : List Char) :
    ((stage1Para fx op p).map RChunk.originalContent).flatten = classifiedConcat p := by
  have h1 := stage1_foldl_text fx op (jsTokenize p) ⟨[], [], []⟩
  have h2 := stage1_foldl_nilInv fx op (jsTokenize p) ⟨[], [], []⟩ (fun _ => rfl)
  set st := (jsTokenize p).foldl (stage1Step fx op) ⟨[], [], []⟩ with hst
  have h1e : stateText st = classifiedConcat p := by
    rw [h1]; rfl
  have hpara : stage1Para fx op p =
      st.chunks ++
        (if !st.items.isEmpty then [⟨st.items, st.parts.flatten, false, 0⟩] else []) := rfl
  rw [hpara]
  unfold stateText at h1e
  cases hi : st.items with
  | nil =>
    rw [if_neg (by simp), List.append_nil]
    have hp : st.parts = [] := h2 hi
    rw [hp, List.flatten_nil, List.append_nil] at h1e
    exact h1e
  | cons x xs =>
    rw [if_pos (by simp)]
    rw [List.map_append, List.flatten_append]
    simp only [List.map_cons, List.map_nil, List.flatten_cons, List.flatten_nil,
      List.append_nil]
    exact h1e

lemma stage1_text (fx op : ℚ) (paras : List (List Char)) :
    ((stage1 fx op paras).map RChunk.originalContent).flatten =
      (paras.map classifiedConcat).flatten := by
  unfold stage1
  rw [List.map_flatten, List.flatten_flatten, List.map_map, List.map_map]
  congr 1
  refine List.map_congr_left (fun p _ => ?_)
  simp only [Function.comp_apply, List.map_append, List.flatten_append]
  rw [stage1Para_text]
  have : ((if !(jsTrim p).isEmpty && p ≠ jsTrim (paras.getLastD []) then
      [paragraphBreakChunk] else []).map RChunk.originalContent).flatten = [] := by
    split <;> simp [paragraphBreakChunk]
  rw [this, List.append_nil]

lemma stage2_of_small (maxW : ℕ) (chunks : List RChunk)
    (h : ∀ c ∈ chunks, chunkWords c ≤ maxW) : stage2 maxW chunks = chunks := by
  induction chunks with
  | nil => rfl
  | cons c cs ih =>
    have hc := h c (List.mem_cons_self c cs)
    have hrest : ∀ x ∈ cs, chunkWords x ≤ maxW := fun x hx => h x (List.mem_cons_of_mem _ hx)
    unfold stage2 at ih ⊢
    rw [List.flatMap_cons, ih hrest]
    split
    · rw [List.singleton_append]
    · rw [if_neg (by omega), List.singleton_append]

lemma assignIdx_map_oc (l : List RChunk) :
    ∀ i : ℕ, (assignIdx i l).map RChunk.originalContent = l.map RChunk.originalContent := by
  induction l with
  | nil => intro i; rfl
  | cons c cs ih => intro i; simp [assignIdx, ih]

lemma assignIdx_mem (l : List RChunk) :
    ∀ (i : ℕ) (c : RChunk), c ∈ assignIdx i l →
      ∃ d ∈ l, c.words = d.words ∧ c.isParagraphBreak = d.isParagraphBreak := by
  induction l with
  | nil => intro i c hc; simp [assignIdx] at hc
  | cons d ds ih =>
    intro i c hc
    rw [assignIdx] at hc
    rcases List.mem_cons.mp hc with h | h
    · exact ⟨d, List.mem_cons_self d ds, by rw [h], by rw [h]⟩
    · obtain ⟨e, he, h1, h2⟩ := ih _ c h
      exact ⟨e, List.mem_cons_of_mem _ he, h1, h2⟩

lemma attachPunctuation_wordOk (items : List RItem) (tok : List Char) (op : ℚ)
    (h : ∀ i ∈ items, wordOk i) :
    ∀ i ∈ attachPunctuation items tok op, wordOk i := by
  cases hrest : items.reverse.dropWhile isSpaceItem with
  | nil =>
    have he : attachPunctuation items tok op = items ++ [RItem.punct tok op] := by
      simp only [attachPunctuation]; rw [hrest]
    rw [he]
    intro i hi
    rcases List.mem_append.mp hi with h1 | h1
    · exact h i h1
    · simp only [List.mem_singleton] at h1; subst h1; trivial
  | cons x back =>
    cases x with
    | word c b n o =>
      have he : attachPunctuation items tok op =
          (items.reverse.takeWhile isSpaceItem ++
            RItem.word (c ++ tok) b (n ++ tok) o :: back).reverse := by
        simp only [attachPunctuation]; rw [hrest]
      rw [he]
      intro i hi
      rw [List.mem_reverse] at hi
      rcases List.mem_append.mp hi with h1 | h1
      · exact h i (List.mem_reverse.mp ((List.takeWhile_sublist isSpaceItem).subset h1))
      · rcases List.mem_cons.mp h1 with h2 | h2
        · subst h2
          have hmem2 : RItem.word c b n o ∈ items.reverse.dropWhile isSpaceItem := by
            rw [hrest]; exact List.mem_cons_self _ _
          have hw : RItem.word c b n o ∈ items :=
            List.mem_reverse.mp ((List.dropWhile_sublist isSpaceItem).subset hmem2)
          have hok : b ++ n = c := h _ hw
          show b ++ (n ++ tok) = c ++ tok
          rw [← List.append_assoc, hok]
        · have hmem2 : i ∈ items.reverse.dropWhile isSpaceItem := by
            rw [hrest]; exact List.mem_cons_of_mem _ h2
          exact h i (List.mem_reverse.mp ((List.dropWhile_sublist isSpaceItem).subset hmem2))
    | space cc =>
      have he : attachPunctuation items tok op = items ++ [RItem.punct tok op] := by
        simp only [attachPunctuation]; rw [hrest]
      rw [he]
      intro i hi
      rcases List.mem_append.mp hi with h1 | h1
      · exact h i h1
      · simp only [List.mem_singleton] at h1; subst h1; trivial
    | punct cc oo =>
      have he : attachPunctuation items tok op = items ++ [RItem.punct tok op] := by
        simp only [attachPunctuation]; rw [hrest]
      rw [he]
      intro i hi
      rcases List.mem_append.mp hi with h1 | h1
      · exact h i h1
      · simp only [List.mem_singleton] at h1; subst h1; trivial

lemma stage1Step_wordOk (fx op : ℚ) (st : BuildState) (tok : List Char)
    (h1 : ∀ i ∈ st.items, wordOk i)
    (h2 : ∀ c ∈ st.chunks, ∀ i ∈ c.words, wordOk i) :
    (∀ i ∈ (stage1Step fx op st tok).items, wordOk i) ∧
      (∀ c ∈ (stage1Step fx op st tok).chunks, ∀ i ∈ c.words, wordOk i) := by
  simp only [stage1Step]
  split_ifs with hw hs hp hcl
  · refine ⟨fun i hi => ?_, h2⟩
    rcases List.mem_append.mp hi with hh | hh
    · exact h1 i hh
    · simp only [List.mem_singleton] at hh
      subst hh
      show List.take ((calculateFixation tok fx).toNat) tok ++
          List.drop ((calculateFixation tok fx).toNat) tok = tok
      exact List.take_append_drop _ _
  · refine ⟨fun i hi => ?_, h2⟩
    rcases List.mem_append.mp hi with hh | hh
    · exact h1 i hh
    · simp only [List.mem_singleton] at hh; subst hh; trivial
  · refine ⟨fun i hi => by simp at hi, fun c hc => ?_⟩
    rcases List.mem_append.mp hc with hh | hh
    · exact h2 c hh
    · simp only [List.mem_singleton] at hh
      subst hh
      exact attachPunctuation_wordOk st.items tok op h1
  · exact ⟨attachPunctuation_wordOk st.items tok op h1, h2⟩
  · exact ⟨h1, h2⟩

lemma stage1_foldl_wordOk (fx op : ℚ) (toks : List (List Char)) :
    ∀ st : BuildState, (∀ i ∈ st.items, wordOk i) →
      (∀ c ∈ st.chunks, ∀ i ∈ c.words, wordOk i) →
      (∀ i ∈ (toks.foldl (stage1Step fx op) st).items, wordOk i) ∧
        (∀ c ∈ (toks.foldl (stage1Step fx op) st).chunks, ∀ i ∈ c.words, wordOk i) := by
  induction toks with
  | nil => intro st ha hb; exact ⟨ha, hb⟩
  | cons t ts ih =>
    intro st ha hb
    rw [List.foldl_cons]
    obtain ⟨ha2, hb2⟩ := stage1Step_wordOk fx op st t ha hb
    exact ih _ ha2 hb2

lemma stage1_wordOk (fx op : ℚ) (paras : List (List Char)) :
    ∀ c ∈ stage1 fx op paras, ∀ i ∈ c.words, wordOk i := by
  intro c hc
  unfold stage1 at hc
  rw [List.mem_flatten] at hc
  obtain ⟨l, hl, hcl⟩ := hc
  rw [List.mem_map] at hl
  obtain ⟨p, _, hpl⟩ := hl
  subst hpl
  rcases List.mem_append.mp hcl with hmem | hmem
  · obtain ⟨ha, hb⟩ := stage1_foldl_wordOk fx op (jsTokenize p)
      ⟨[], [], []⟩ (by intro i hi; simp at hi) (by intro d hd; simp at hd)
    have hpara : stage1Para fx op p =
        ((jsTokenize p).foldl (stage1Step fx op) ⟨[], [], []⟩).chunks ++
          (if !((jsTokenize p).foldl (stage1Step fx op) ⟨[], [], []⟩).items.isEmpty then
            [⟨((jsTokenize p).foldl (stage1Step fx op) ⟨[], [], []⟩).items,
              ((jsTokenize p).foldl (stage1Step fx op) ⟨[], [], []⟩).parts.flatten,
              false, 0⟩] else []) := rfl
    rw [hpara] at hmem
    rcases List.mem_append.mp hmem with hm | hm
    · exact hb c hm
    · split at hm
      · simp only [List.mem_singleton] at hm
        subst hm
        exact ha
      · simp at hm
  · split at hmem
    · simp only [List.mem_singleton] at hmem
      subst hmem
      intro i hi
      simp [paragraphBreakChunk] at hi
    · simp at hmem

lemma prefixAdjust_le (lw : List Char) (len : ℕ) (fp : ℤ) : prefixAdjust lw len fp ≤ fp := by
  unfold prefixAdjust
  split
  · exact min_le_left _ _
  · exact le_refl _

lemma suffixAdjust_le (lw : List Char) (len : ℕ) (fp : ℤ) : suffixAdjust lw len fp ≤ fp := by
  unfold suffixAdjust
  split
  · exact min_le_left _ _
  · exact le_refl _

lemma fixationBalance_of_small (len : ℕ) (fp : ℤ) (h : len ≤ 3) :
    fixationBalance len fp = 1 := if_pos h

lemma calcFix_eval (w : List Char) (f : ℚ) (b : ℤ) (h1 : 1 < w.length)
    (hb : (⌈((w.length : ℕ) : ℚ) * f⌉ : ℤ) = b) :
    calculateFixation w f =
      min (max 1 (fixationBalance w.length (suffixAdjust (w.map Char.toLower) w.length
        (prefixAdjust (w.map Char.toLower) w.length b)))) ((w.length : ℤ) - 1) := by
  unfold calculateFixation
  rw [if_neg (by omega)]
  simp only [fixationCore]
  rw [hb]

/-- C7: for every word longer than one character and every fixation level in
the documented range the returned fixation point is an integer between one
and the length minus one; every word of length at most one returns its own
length; and every word of length at most three (but more than one) returns
exactly one. -/
theorem fixation_contract :
    (∀ (w : List Char) (f : ℚ), 1 < w.length → (0.2 : ℚ) ≤ f → f ≤ (0.8 : ℚ) →
        1 ≤ calculateFixation w f ∧ calculateFixation w f ≤ (w.length : ℤ) - 1) ∧
    (∀ (w : List Char) (f : ℚ), w.length ≤ 1 → calculateFixation w f = (w.length : ℤ)) ∧
    (∀ (w : List Char) (f : ℚ), 1 < w.length → w.length ≤ 3 → calculateFixation w f = 1) := by
  refine ⟨fun w f h1 _ _ => ?_, fun w f h1 => ?_, fun w f h1 h2 => ?_⟩
  · unfold calculateFixation
    rw [if_neg (by omega)]
    simp only [fixationCore]
    constructor
    · refine le_min (le_max_left _ _) ?_
      omega
    · exact min_le_right _ _
  · unfold calculateFixation
    rw [if_pos h1]
  · unfold calculateFixation
    rw [if_neg (by omega)]
    simp only [fixationCore]
    rw [fixationBalance_of_small _ _ h2]
    omega

/-- Witness for fixation_contract at the word "word" and level one half. -/
theorem fixation_contract_witness :
    1 < ("word".toList).length ∧ (0.2 : ℚ) ≤ 0.5 ∧ (0.5 : ℚ) ≤ 0.8 ∧
      (1 ≤ calculateFixation ("word".toList) 0.5 ∧
        calculateFixation ("word".toList) 0.5 ≤ (("word".toList).length : ℤ) - 1) :=
  ⟨by decide, by norm_num, by norm_num,
    fixation_contract.1 ("word".toList) 0.5 (by decide) (by norm_num) (by norm_num)⟩

/-- C8 counterexample: on the ten-character word with no listed prefix or
suffix and level one half, rule 4 raises the fixation point to six, above
the base point five, so the rules are not all conservative. -/
theorem fixation_monotone_counterexample :
    calculateFixation ("abcdefghij".toList) 0.5 = 6 ∧
      (⌈((("abcdefghij".toList).length : ℕ) : ℚ) * 0.5⌉ : ℤ) = 5 := by
  have hb : (⌈((("abcdefghij".toList).length : ℕ) : ℚ) * 0.5⌉ : ℤ) = 5 := by
    show (⌈((10 : ℕ) : ℚ) * 0.5⌉ : ℤ) = 5
    norm_num
  refine ⟨?_, hb⟩
  rw [calcFix_eval _ _ 5 (by decide) hb]
  decide

/-- C8 amended: rules 2 and 3 only lower the point, but rule 4 forces one
for short words and may add one (capped at length minus one) for words
longer than eight, so the result is bounded by the maximum of one and the
capped base-plus-one, and for words of length at most eight by the maximum
of one and the base itself. -/
theorem fixation_monotone_amended (w : List Char) (f : ℚ) (h1 : 1 < w.length) :
    calculateFixation w f ≤
        max 1 (min ((⌈((w.length : ℕ) : ℚ) * f⌉ : ℤ) + 1) ((w.length : ℤ) - 1)) ∧
      (w.length ≤ 8 → calculateFixation w f ≤ max 1 (⌈((w.length : ℕ) : ℚ) * f⌉ : ℤ)) := by
  unfold calculateFixation
  rw [if_neg (by omega)]
  simp only [fixationCore]
  have hp := prefixAdjust_le (w.map Char.toLower) w.length (⌈((w.length : ℕ) : ℚ) * f⌉ : ℤ)
  have hs := suffixAdjust_le (w.map Char.toLower) w.length
    (prefixAdjust (w.map Char.toLower) w.length (⌈((w.length : ℕ) : ℚ) * f⌉ : ℤ))
  unfold fixationBalance
  split_ifs with h3 h8
  · exact ⟨by omega, fun _ => by omega⟩
  · exact ⟨by omega, fun h8le => by omega⟩
  · exact ⟨by omega, fun _ => by omega⟩

/-- Witness for fixation_monotone_amended at the ten-character word. -/
theorem fixation_monotone_witness :
    1 < ("abcdefghij".toList).length ∧
      calculateFixation ("abcdefghij".toList) 0.5 ≤
        max 1 (min ((⌈((("abcdefghij".toList).length : ℕ) : ℚ) * 0.5⌉ : ℤ) + 1)
          ((("abcdefghij".toList).length : ℤ) - 1)) :=
  ⟨by decide, (fixation_monotone_amended ("abcdefghij".toList) 0.5 (by decide)).1⟩

/-- C9: calculateWPM returns zero whenever the elapsed time is nonpositive,
returns zero whenever no words were read, and otherwise returns the rounded
words-per-minute ratio. -/
theorem wpm_contract :
    (∀ w t : ℚ, t ≤ 0 → calculateWPM w t = 0) ∧
    (∀ t : ℚ, calculateWPM 0 t = 0) ∧
    (∀ w t : ℚ, 0 < t → calculateWPM w t = jsRound (w / t * 60)) := by
  refine ⟨fun w t h => if_pos h, fun t => ?_, fun w t h => if_neg (not_le.mpr h)⟩
  unfold calculateWPM
  split_ifs with h
  · rfl
  · unfold jsRound
    rw [zero_div, zero_mul, zero_add]
    norm_num

/-- Witness for wpm_contract at concrete values. -/
theorem wpm_contract_witness :
    calculateWPM 7 (-2) = 0 ∧ calculateWPM 0 5 = 0 ∧
      calculateWPM 120 60 = jsRound ((120 : ℚ) / 60 * 60) :=
  ⟨wpm_contract.1 7 (-2) (by norm_num), wpm_contract.2.1 5,
    wpm_contract.2.2 120 60 (by norm_num)⟩

/-- C2 amended: when no natural chunk exceeds the word limit (so the
fallback splitter passes every chunk through unchanged), concatenating the
original content of all returned chunks, markers contributing the empty
string, reproduces exactly the concatenation over the kept paragraphs of
the tokens the tokenizer matched and the chunk builder classified; the
characters of unmatched or unclassifiable stretches, notably any word
directly followed by a period, are lost. -/
theorem chunkConcat_amended (text : List Char) (s : Settings)
    (h : ∀ c ∈ stage1 s.fixation s.opacity (keptParagraphs text),
        chunkWords c ≤ s.maxWordsPerChunk) :
    ((applyEnhancedFormatting text s).map RChunk.originalContent).flatten =
      ((keptParagraphs text).map classifiedConcat).flatten := by
  unfold applyEnhancedFormatting
  split_ifs with ht
  · have h0 : text = [] := List.isEmpty_iff.mp ht
    subst h0
    rfl
  · rw [assignIdx_map_oc, stage2_of_small _ _ h, stage1_text]

/-- C2 counterexample: the single paragraph consisting of the word hello
followed by a period loses the word entirely, because the tokenizer's
negative lookahead rejects any word directly followed by a period, so the
concatenated chunk text is just the period. -/
theorem chunkConcat_counterexample :
    keptParagraphs ("hello.".toList) = ["hello.".toList] ∧
      ((applyEnhancedFormatting ("hello.".toList) defaultSettings).map
          RChunk.originalContent).flatten = ".".toList ∧
      (".".toList : List Char) ≠ "hello.".toList := by
  refine ⟨by decide, by decide, by decide⟩

/-- Witness for chunkConcat_amended on a small two-paragraph document. -/
theorem chunkConcat_witness :
    (∀ c ∈ stage1 defaultSettings.fixation defaultSettings.opacity
        (keptParagraphs ("ab cd.\n\nef".toList)),
      chunkWords c ≤ defaultSettings.maxWordsPerChunk) ∧
    ((applyEnhancedFormatting ("ab cd.\n\nef".toList) defaultSettings).map
        RChunk.originalContent).flatten =
      ((keptParagraphs ("ab cd.\n\nef".toList)).map classifiedConcat).flatten :=
  ⟨by decide, chunkConcat_amended _ _ (by decide)⟩

/-- C1: on the scenario text the code does not produce the two chunks the
specification expects; the tokenizer drops every word that directly abuts a
period (Dr, hello, quickly), the leading period becomes a standalone chunk,
and the merged periods sit after a space, giving three chunks whose texts
are the period, then a chunk reading Smith said followed by a spaced
period, then a chunk reading He left followed by a spaced period. -/
theorem drSmith_eval :
    jsTokenize ("Dr. Smith said hello. He left quickly.".toList) =
        [".".toList, " ".toList, "Smith".toList, " ".toList, "said".toList,
          " ".toList, ".".toList, " ".toList, "He".toList, " ".toList,
          "left".toList, " ".toList, ".".toList] ∧
      ((applyEnhancedFormatting ("Dr. Smith said hello. He left quickly.".toList)
          defaultSettings).map RChunk.originalContent) =
        [".".toList, " Smith said .".toList, " He left .".toList] := by
  refine ⟨by decide, by decide⟩

/-- C6: the marker condition compares the raw paragraph against the trimmed
last paragraph, so a document whose last paragraph carries surrounding
whitespace gets a marker after its last paragraph, and an earlier paragraph
equal to that trimmed text gets none; on this input the returned sequence
ends with a paragraph-break marker. -/
theorem paragraphMarker_eval :
    keptParagraphs ("a\n\na ".toList) = ["a".toList, "a ".toList] ∧
      ((applyEnhancedFormatting ("a\n\na ".toList) defaultSettings).map
          (fun c => c.isParagraphBreak)) = [false, false, true] := by
  refine ⟨by decide, by decide⟩

/-- C3 counterexample: a fifteen-word sentence with no internal punctuation
and a limit of five words yields five sub-chunks, not three. -/
theorem fallback_counterexample :
    (applyEnhancedFormatting fifteenWordText sizeFiveSettings).length = 5 ∧
      (5 : ℕ) ≠ 3 := by
  refine ⟨by decide, by decide⟩

/-- C3 amended: the splitter backtracks from each five-word trigger to the
nearest preceding space and splits after it, so the triggering word itself
starts the next sub-chunk: the fifteen-word sentence produces five
sub-chunks carrying four, four, four, two and one words. -/
theorem fallback_amended :
    ((applyEnhancedFormatting fifteenWordText sizeFiveSettings).map
        (fun c => (RChunk.originalContent c, chunkWords c))) =
      [("one two three four ".toList, 4), ("five six seven eight ".toList, 4),
        ("nine ten alpha beta ".toList, 4), ("gamma delta ".toList, 2),
        ("epsilon".toList, 1)] := by
  decide

/-- C4 amended: every non-marker chunk that contains at least one space item
carries at most maxWordsPerChunk word items; chunks with no space item
(which arise when unmatched characters are dropped between words, leaving
the splitter no whitespace boundary) may exceed the limit. -/
theorem chunkSize_amended (text : List Char) (s : Settings) (c : RChunk)
    (hmem : c ∈ applyEnhancedFormatting text s)
    (hnb : c.isParagraphBreak = false)
    (hsp : c.words.any isSpaceItem = true) :
    chunkWords c ≤ s.maxWordsPerChunk := by
  unfold applyEnhancedFormatting at hmem
  split_ifs at hmem with ht
  · simp at hmem
  · obtain ⟨d, hd, hw, hb⟩ := assignIdx_mem _ _ _ hmem
    have hcd : chunkWords c = chunkWords d := by unfold chunkWords; rw [hw]
    rw [hw] at hsp
    rw [hcd]
    obtain ⟨e, he, hde⟩ := List.mem_flatMap.mp hd
    by_cases hbe : e.isParagraphBreak = true
    · rw [if_pos hbe] at hde
      simp only [List.mem_singleton] at hde
      subst hde
      rw [hb, hbe] at hnb
      exact absurd hnb (by simp)
    · rw [if_neg hbe] at hde
      by_cases hgt : s.maxWordsPerChunk < chunkWords e
      · rw [if_pos hgt] at hde
        exact splitLoop_space_bound _ _ [] [] 0 rfl (Nat.zero_le _)
          (fun habs => by simp at habs) d hde hsp
      · rw [if_neg hgt] at hde
        simp only [List.mem_singleton] at hde
        subst hde
        omega

/-- C4 counterexample: dropped unmatched characters leave adjacent word
items with no space between them; this input produces one non-marker chunk
carrying six separate word items against a limit of five (followed by a
spurious marker caused by the untrimmed paragraph comparison), so the limit
is exceeded by several distinct word tokens, not by a single atomic one. -/
theorem chunkSize_counterexample :
    ((applyEnhancedFormatting (" a(b(c(d(e(f".toList) sizeFiveSettings).map
        (fun c => (chunkWords c, c.words.length, c.isParagraphBreak))) =
      [(6, 6, false), (0, 0, true)] ∧
    sizeFiveSettings.maxWordsPerChunk < 6 := by
  refine ⟨by decide, by decide⟩

/-- Witness for chunkSize_amended on a two-word chunk containing a space. -/
theorem chunkSize_witness :
    chunkWords ((applyEnhancedFormatting ("ab cd".toList) defaultSettings).get
        ⟨0, by decide⟩) ≤ defaultSettings.maxWordsPerChunk :=
  chunkSize_amended _ _ _ (List.get_mem _ 0 _) (by decide) (by decide)

/-- C5 amended: an accepted tick advances the cursor by one and reports a
progress percentage computed against the full chunk count, paragraph-break
markers included both in the cursor positions and in the denominator. -/
theorem tickProgress_amended (chunks : List RChunk) (prev : ℕ) (elapsed : ℚ)
    (ni : ℕ) (ev : ProgressEvent)
    (h : readerTick chunks prev elapsed = some (ni, ev)) :
    ni = prev + 1 ∧
      ev.progressPercent = ((ni : ℕ) : ℚ) / ((chunks.length : ℕ) : ℚ) * 100 := by
  unfold readerTick at h
  split_ifs at h with hlen
  simp only [Option.some.injEq, Prod.mk.injEq] at h
  obtain ⟨hni, hev⟩ := h
  subst hev
  refine ⟨hni.symm, ?_⟩
  rw [← hni]

/-- C5 counterexample: on a three-chunk sequence holding one marker (two
readable chunks), the first accepted tick reports one third of one hundred,
not the fifty percent that a marker-excluding cursor and denominator would
give. -/
theorem tickProgress_counterexample :
    c5Chunks.length = 3 ∧
      (c5Chunks.filter (fun c => !c.isParagraphBreak)).length = 2 ∧
      (readerTick c5Chunks 0 1).map (fun p => p.2.progressPercent) =
        some (((1 : ℕ) : ℚ) / ((3 : ℕ) : ℚ) * 100) ∧
      ((1 : ℕ) : ℚ) / ((3 : ℕ) : ℚ) * 100 ≠ 100 * 1 / 2 := by
  refine ⟨by decide, by decide, rfl, by push_cast; norm_num⟩

/-- Witness for tickProgress_amended on two contentless chunks. -/
theorem tickProgress_witness :
    (⟨0, calculateWPM ((0 : ℕ) : ℚ) 1,
        ((1 : ℕ) : ℚ) / ((tickDemoChunks.length : ℕ) : ℚ) * 100⟩ :
        ProgressEvent).progressPercent =
      ((1 : ℕ) : ℚ) / ((tickDemoChunks.length : ℕ) : ℚ) * 100 :=
  (tickProgress_amended tickDemoChunks 0 1 1 _ rfl).2

/-- C10: every word item of every chunk produced by the pipeline satisfies
bold plus normal equals content, and the backward punctuation merge
preserves the invariant, appending the punctuation text to both the content
and the normal suffix of the word it lands on. -/
theorem wordSplit_invariant :
    (∀ (text : List Char) (s : Settings), ∀ c ∈ applyEnhancedFormatting text s,
        ∀ i ∈ c.words, wordOk i) ∧
      (∀ (items : List RItem) (tok : List Char) (op : ℚ),
        (∀ i ∈ items, wordOk i) → ∀ i ∈ attachPunctuation items tok op, wordOk i) := by
  constructor
  · intro text s c hc i hi
    unfold applyEnhancedFormatting at hc
    split_ifs at hc with ht
    · simp at hc
    · obtain ⟨d, hd, hw, _⟩ := assignIdx_mem _ _ _ hc
      rw [hw] at hi
      obtain ⟨e, he, hde⟩ := List.mem_flatMap.mp hd
      have hse := stage1_wordOk s.fixation s.opacity (keptParagraphs text) e he
      by_cases hbe : e.isParagraphBreak = true
      · rw [if_pos hbe] at hde
        simp only [List.mem_singleton] at hde
        subst hde
        exact hse i hi
      · rw [if_neg hbe] at hde
        by_cases hgt : s.maxWordsPerChunk < chunkWords e
        · rw [if_pos hgt] at hde
          rcases splitLoop_words_mem _ _ [] [] 0 d hde i hi with hfalse | hmem2
          · simp at hfalse
          · exact hse i hmem2
        · rw [if_neg hgt] at hde
          simp only [List.mem_singleton] at hde
          subst hde
          exact hse i hi
  · exact fun items tok op h => attachPunctuation_wordOk items tok op h

/-- Witness for wordSplit_invariant at a one-word document. -/
theorem wordSplit_invariant_witness :
    wordOk (((applyEnhancedFormatting ("ab".toList) defaultSettings).get
        ⟨0, by decide⟩).words.get ⟨0, by decide⟩) :=
  wordSplit_invariant.1 ("ab".toList) defaultSettings _ (List.get_mem _ 0 _) _
    (List.get_mem _ 0 _)
